import Mathlib

/-!
Verification of the polyfuse message-framing layer (`src/polyfuse/src/io.rs`).

The development shallowly embeds the framing layer:

* header records are modelled as raw byte lists with little-endian field
  accessors at the offsets of the kernel ABI records (the spec's §9 itself
  recommends exactly this representation);
* the asynchronous reader is modelled as a script of poll events, one event
  consumed per `poll_read` call; `Poll::Pending`, transport failure and a
  ready read of a given byte string are the three event shapes;
* machine-integer overflow and panics are explicit: fallible operations
  return `Option`, with `none` standing for an aborted (panicking) execution.

The crate-internal `kernel` module (record layouts `fuse_in_header`,
`fuse_out_header`, `fuse_write_in`, `fuse_notify_retrieve_in` and the
`fuse_opcode` enumeration) is not among the provided sources; its sizes,
offsets and the two opcode values observed by `arg_len` are modelled from
the spec (§3, §4.2, §6) and from the byte-level expectations of the unit
tests in `io.rs`.
-/

namespace Polyfuse

/-- Little-endian encoding of a natural number into `w` bytes. -/
def toLE : Nat → Nat → List Nat
  | 0, _ => []
  | w + 1, v => v % 256 :: toLE w (v / 256)

/-- Little-endian decoding of a byte list into a natural number. -/
def fromLE (bs : List Nat) : Nat :=
  bs.foldr (fun b acc => b + 256 * acc) 0

/-- Extract the `w`-byte little-endian field at offset `off` of a record. -/
def fieldLE (bs : List Nat) (off w : Nat) : Nat :=
  fromLE ((bs.drop off).take w)

/-- Modelled from the spec: size in bytes of the kernel `fuse_in_header`
record (the request header): `len:u32, opcode:u32, unique:u64, nodeid:u64,
uid:u32, gid:u32, pid:u32` plus the ABI padding word. -/
def inHeaderSize : Nat := 40

/-- Modelled from the spec: size in bytes of the kernel `fuse_out_header`
record `len:u32, error:i32, unique:u64`; the unit tests of `io.rs` pin the
empty-payload response length to 16. -/
def outHeaderSize : Nat := 16

/-- Modelled from the spec: size in bytes of the fixed `fuse_write_in`
prefix record carried by write requests. -/
def fuse_write_in_size : Nat := 40

/-- Modelled from the spec: size in bytes of the fixed
`fuse_notify_retrieve_in` prefix record; the source notes it equals the
`fuse_write_in` size. -/
def fuse_notify_retrieve_in_size : Nat := 40

/-- Modelled from the spec: the raw opcode value of `FUSE_WRITE`. -/
def FUSE_WRITE : Nat := 16

/-- Modelled from the spec: the raw opcode value of `FUSE_NOTIFY_REPLY`. -/
def FUSE_NOTIFY_REPLY : Nat := 41

/-- The raw `EINVAL` error number, returned by the decoder on short reads. -/
def EINVAL : Int := 22

/-- The request header `InHeader` as its raw byte view (the form in which
the decoder receives and inspects it). -/
abbrev InHeader := List Nat

/-- Accessor `InHeader::len`: the `len:u32` field at offset 0. -/
def InHeader.len (h : InHeader) : Nat := fieldLE h 0 4

/-- The raw `opcode:u32` field at offset 4. `InHeader::opcode` in the
source decodes this through `fuse_opcode::try_from(..).ok()`; `arg_len`
only distinguishes `FUSE_WRITE` and `FUSE_NOTIFY_REPLY`, and `try_from`
is injective on raw values, so the decoded comparison is modelled by
comparing the raw value. -/
def InHeader.opcode (h : InHeader) : Nat := fieldLE h 4 4

/-- Accessor `InHeader::unique`: the `unique:u64` field at offset 8. -/
def InHeader.unique (h : InHeader) : Nat := fieldLE h 8 8

/-- Accessor `InHeader::nodeid`: the `nodeid:u64` field at offset 16. -/
def InHeader.nodeid (h : InHeader) : Nat := fieldLE h 16 8

/-- Accessor `InHeader::uid`: the `uid:u32` field at offset 24. -/
def InHeader.uid (h : InHeader) : Nat := fieldLE h 24 4

/-- Accessor `InHeader::gid`: the `gid:u32` field at offset 28. -/
def InHeader.gid (h : InHeader) : Nat := fieldLE h 28 4

/-- Accessor `InHeader::pid`: the `pid:u32` field at offset 32. -/
def InHeader.pid (h : InHeader) : Nat := fieldLE h 32 4

/-- `InHeader::arg_len` from `io.rs`: the write-style opcodes map to the
fixed prefix sizes; every other opcode (recognized or not) maps to
`self.len() as usize - mem::size_of::<InHeader>()`. That subtraction is
unchecked `usize` arithmetic: when `len < inHeaderSize` it underflows,
panicking in debug builds (and producing an absurd allocation request in
release builds), modelled here as `none`. -/
def InHeader.arg_len (h : InHeader) : Option Nat :=
  if h.opcode = FUSE_WRITE then some fuse_write_in_size
  else if h.opcode = FUSE_NOTIFY_REPLY then some fuse_notify_retrieve_in_size
  else if h.len < inHeaderSize then none
  else some (h.len - inHeaderSize)

/-- The response header `fuse_out_header` with its three fields, as built
by `WriterExt::send_msg`. -/
structure OutHeader where
  len : Nat
  error : Int
  unique : Nat
deriving DecidableEq, Repr

/-- Byte view `OutHeader::as_ref` of the response header: `len:u32` at
offset 0, `error:i32` (two's complement) at offset 4, `unique:u64` at
offset 8, little-endian — the layout the unit tests of `io.rs` assert. -/
def OutHeader.bytes (h : OutHeader) : List Nat :=
  toLE 4 h.len ++ toLE 4 (h.error.emod (2 ^ 32)).toNat ++ toLE 8 h.unique

/-- Total payload size `data.iter().map(|t| t.len()).sum()`. -/
def chunkTotal (chunks : List (List Nat)) : Nat :=
  (chunks.map List.length).sum

/-- `WriterExt::send_msg` header construction:
`len = u32::try_from(size_of::<fuse_out_header>() + data_len).unwrap()`.
The `unwrap` panics when the sum exceeds `u32::MAX`, modelled as `none`. -/
def send_msg (unique : Nat) (error : Int) (chunks : List (List Nat)) :
    Option OutHeader :=
  if outHeaderSize + chunkTotal chunks < 2 ^ 32 then
    some ⟨outHeaderSize + chunkTotal chunks, error, unique⟩
  else none

/-- The byte sequence transmitted by one `SendMsg` poll: the `Writer`
contract (and the `DummyWriter` test harness in `io.rs`) emits the header
byte view followed by the payload chunks in order, as one unit. -/
def sendMsgBytes (unique : Nat) (error : Int) (chunks : List (List Nat)) :
    Option (List Nat) :=
  (send_msg unique error chunks).map (fun h => h.bytes ++ chunks.flatten)

/-- Decode 4 little-endian bytes as a two's-complement `i32` value. -/
def decodeI32 (n : Nat) : Int :=
  if n < 2 ^ 31 then (n : Int) else (n : Int) - 2 ^ 32

theorem toLE_length (w v : Nat) : (toLE w v).length = w := by
  induction w generalizing v with
  | zero => rfl
  | succ w ih => simp [toLE, ih]

theorem fromLE_toLE (w v : Nat) (hv : v < 2 ^ (8 * w)) :
    fromLE (toLE w v) = v := by
  induction w generalizing v with
  | zero =>
    simp only [Nat.mul_zero, pow_zero, Nat.lt_one_iff] at hv
    simp [toLE, fromLE, hv]
  | succ w ih =>
    have hdiv : v / 256 < 2 ^ (8 * w) := by
      rw [Nat.div_lt_iff_lt_mul (by norm_num : 0 < 256)]
      calc v < 2 ^ (8 * (w + 1)) := hv
        _ = 2 ^ (8 * w) * 256 := by ring
    have : fromLE (toLE w (v / 256)) = v / 256 := ih _ hdiv
    simp only [toLE, fromLE, List.foldr_cons]
    show v % 256 + 256 * fromLE (toLE w (v / 256)) = v
    rw [this]
    omega

theorem take_len_append {α : Type} (l1 l2 : List α) (n : Nat)
    (h : l1.length = n) : (l1 ++ l2).take n = l1 := by
  subst h; simp

theorem drop_len_append {α : Type} (l1 l2 : List α) (n : Nat)
    (h : l1.length = n) : (l1 ++ l2).drop n = l2 := by
  subst h; simp

theorem decodeI32_emod (e : Int) (h1 : -2 ^ 31 ≤ e) (h2 : e < 2 ^ 31) :
    decodeI32 ((e.emod (2 ^ 32)).toNat) = e := by
  unfold decodeI32
  have hm : e.emod (2 ^ 32) = e % 2 ^ 32 := rfl
  rw [hm]
  split <;> omega

theorem emod_toNat_lt (e : Int) : (e.emod (2 ^ 32)).toNat < 2 ^ (8 * 4) := by
  have hm : e.emod (2 ^ 32) = e % 2 ^ 32 := rfl
  have h1 : (0 : Int) ≤ e % 2 ^ 32 := Int.emod_nonneg e (by norm_num)
  have h2 : e % 2 ^ 32 < 2 ^ 32 := Int.emod_lt_of_pos e (by norm_num)
  rw [hm]
  omega

theorem send_msg_eq (unique : Nat) (error : Int) (chunks : List (List Nat))
    (hlen : outHeaderSize + chunkTotal chunks < 2 ^ 32) :
    send_msg unique error chunks =
      some ⟨outHeaderSize + chunkTotal chunks, error, unique⟩ := by
  unfold send_msg
  rw [if_pos hlen]

/-- C1: for every unique id, error code and chunk list whose framed size is
u32-representable, `send_msg` transmits a header whose little-endian `len`
field is the response-header size plus the total chunk bytes, whose `error`
field is the given error (two's complement) and whose `unique` field is the
given unique id, followed by the chunks concatenated in order. -/
theorem send_transmits_header_then_chunks (unique : Nat) (error : Int)
    (chunks : List (List Nat)) (hu : unique < 2 ^ 64)
    (he1 : -2 ^ 31 ≤ error) (he2 : error < 2 ^ 31)
    (hlen : outHeaderSize + chunkTotal chunks < 2 ^ 32) :
    ∃ bs, sendMsgBytes unique error chunks = some bs ∧
      fromLE (bs.take 4) = outHeaderSize + chunkTotal chunks ∧
      decodeI32 (fromLE ((bs.drop 4).take 4)) = error ∧
      fromLE ((bs.drop 8).take 8) = unique ∧
      bs.drop outHeaderSize = chunks.flatten := by
  have heb : (OutHeader.mk (outHeaderSize + chunkTotal chunks) error
      unique).bytes ++ chunks.flatten =
      toLE 4 (outHeaderSize + chunkTotal chunks) ++
        (toLE 4 ((error.emod (2 ^ 32)).toNat) ++
          (toLE 8 unique ++ chunks.flatten)) := by
    simp [OutHeader.bytes]
  refine ⟨(OutHeader.mk (outHeaderSize + chunkTotal chunks) error
      unique).bytes ++ chunks.flatten, ?_, ?_, ?_, ?_, ?_⟩
  · unfold sendMsgBytes
    rw [send_msg_eq unique error chunks hlen]
    rfl
  · rw [heb, take_len_append _ _ _ (toLE_length 4 _)]
    exact fromLE_toLE 4 _ (by simpa using hlen)
  · rw [heb, drop_len_append _ _ _ (toLE_length 4 _),
      take_len_append _ _ _ (toLE_length 4 _),
      fromLE_toLE 4 _ (emod_toNat_lt error)]
    exact decodeI32_emod error he1 he2
  · have hsplit : (OutHeader.mk (outHeaderSize + chunkTotal chunks) error
        unique).bytes ++ chunks.flatten =
        (toLE 4 (outHeaderSize + chunkTotal chunks) ++
          toLE 4 ((error.emod (2 ^ 32)).toNat)) ++
          (toLE 8 unique ++ chunks.flatten) := by
      simp [OutHeader.bytes]
    rw [hsplit, drop_len_append _ _ 8 (by simp [toLE_length]),
      take_len_append _ _ _ (toLE_length 8 _)]
    exact fromLE_toLE 8 _ (by simpa using hu)
  · have hsplit : (OutHeader.mk (outHeaderSize + chunkTotal chunks) error
        unique).bytes ++ chunks.flatten =
        (toLE 4 (outHeaderSize + chunkTotal chunks) ++
          (toLE 4 ((error.emod (2 ^ 32)).toNat) ++ toLE 8 unique)) ++
          chunks.flatten := by
      simp [OutHeader.bytes]
    rw [hsplit]
    exact drop_len_append _ _ outHeaderSize (by simp [toLE_length, outHeaderSize])

/-- C1 witness: the spec's single-chunk example `unique=42, error=0,
chunks=["hello"]` yields `len=21`, `error=0`, `unique=42`, payload
`hello`. -/
theorem send_transmits_header_then_chunks_witness :
    ∃ bs, sendMsgBytes 42 0 [[104, 101, 108, 108, 111]] = some bs ∧
      fromLE (bs.take 4) = outHeaderSize + chunkTotal [[104, 101, 108, 108, 111]] ∧
      decodeI32 (fromLE ((bs.drop 4).take 4)) = 0 ∧
      fromLE ((bs.drop 8).take 8) = 42 ∧
      bs.drop outHeaderSize = [[104, 101, 108, 108, 111]].flatten :=
  send_transmits_header_then_chunks 42 0 [[104, 101, 108, 108, 111]]
    (by norm_num) (by norm_num) (by norm_num) (by decide)

/-- C6: the encoder aborts (models the `unwrap` panic as `none`) exactly
when the header size plus the total chunk bytes is not u32-representable;
for protocol-bounded sums that branch is unreachable and a header is
built. -/
theorem send_msg_unrepresentable_length_panics (unique : Nat) (error : Int)
    (chunks : List (List Nat)) :
    send_msg unique error chunks = none ↔
      2 ^ 32 ≤ outHeaderSize + chunkTotal chunks := by
  unfold send_msg
  split
  · next hl => simp; omega
  · next hl => simp; omega

/-- A concrete header record: `len = 0`, `opcode = 7` (neither `FUSE_WRITE`
nor `FUSE_NOTIFY_REPLY`), all other bytes zero. -/
def cexHdr : InHeader := [0, 0, 0, 0, 7, 0, 0, 0] ++ List.replicate 32 0

/-- C3 counterexample: at a header with a non-write opcode and
`len = 0 < inHeaderSize`, `arg_len` has no natural-number value (the
unchecked `usize` subtraction underflows), so it does not equal
`header.length − header_record_size` as the claim asserts for every such
header. -/
theorem arg_len_cex :
    cexHdr.opcode ≠ FUSE_WRITE ∧ cexHdr.opcode ≠ FUSE_NOTIFY_REPLY ∧
    cexHdr.len = 0 ∧ InHeader.arg_len cexHdr = none := by
  decide

/-- C3 (amended): `arg_len` is the fixed `fuse_write_in` size under
`FUSE_WRITE`, the fixed `fuse_notify_retrieve_in` size under
`FUSE_NOTIFY_REPLY`, and `header.len − inHeaderSize` for every other
opcode value (recognized or not) provided `header.len` is at least the
header record size. -/
theorem arg_len_characterization (h : InHeader) :
    (h.opcode = FUSE_WRITE → h.arg_len = some fuse_write_in_size) ∧
    (h.opcode = FUSE_NOTIFY_REPLY →
      h.arg_len = some fuse_notify_retrieve_in_size) ∧
    (h.opcode ≠ FUSE_WRITE → h.opcode ≠ FUSE_NOTIFY_REPLY →
      inHeaderSize ≤ h.len → h.arg_len = some (h.len - inHeaderSize)) := by
  unfold InHeader.arg_len
  refine ⟨fun h1 => by simp [h1], fun h1 => ?_, fun h1 h2 h3 => ?_⟩
  · rw [h1]
    rw [if_neg (by decide), if_pos rfl]
  · rw [if_neg h1, if_neg h2, if_neg (Nat.not_lt.mpr h3)]

/-- C3 witness: a header with opcode `0` and `len = 40` has an empty
argument section. -/
theorem arg_len_characterization_witness :
    InHeader.arg_len ([40, 0, 0, 0] ++ List.replicate 36 0) = some 0 := by
  have h := (arg_len_characterization ([40, 0, 0, 0] ++ List.replicate 36 0)).2.2
    (by decide) (by decide) (by decide)
  rw [h]
  decide

/-- A concrete header record with `len = 10` and opcode `0`. -/
def shortHdr : InHeader := [10, 0, 0, 0] ++ List.replicate 36 0

/-- C10: for every header whose opcode is neither `FUSE_WRITE` nor
`FUSE_NOTIFY_REPLY`, `arg_len` fails to produce a value (the unguarded
`usize` subtraction underflows — a debug-build panic) exactly when the
header's `len` field is strictly below the header record size; it is total
under the precondition `inHeaderSize ≤ len`. -/
theorem arg_len_underflow (h : InHeader) (h1 : h.opcode ≠ FUSE_WRITE)
    (h2 : h.opcode ≠ FUSE_NOTIFY_REPLY) :
    h.arg_len = none ↔ h.len < inHeaderSize := by
  unfold InHeader.arg_len
  rw [if_neg h1, if_neg h2]
  constructor
  · intro hn
    by_contra hlt
    rw [if_neg hlt] at hn
    exact Option.some_ne_none _ hn
  · intro hlt
    rw [if_pos hlt]

/-- C10 witness: a header with opcode `0` and `len = 10 < 40` makes
`arg_len` underflow. -/
theorem arg_len_underflow_witness : InHeader.arg_len shortHdr = none :=
  (arg_len_underflow shortHdr (by decide) (by decide)).mpr (by decide)

/-- A completed request: the header record plus the owned argument byte
buffer, as produced by a successful decode. -/
structure Request where
  header : InHeader
  arg : List Nat
deriving DecidableEq, Repr

/-- One poll event of the abstract `AsyncRead` channel: not ready, a ready
transport failure with a raw error number, or a ready transfer of the given
bytes (of which at most the destination size are copied, the copied count
being reported). An incoming byte stream is a script of such events, one
consumed per `poll_read` call. -/
inductive PollEvt where
  | pending
  | failure (e : Int)
  | transfer (bytes : List Nat)
deriving DecidableEq, Repr

/-- The argument `Vec<u8>`: an observable length plus the backing store of
the allocated capacity (the capacity is `data.length`). -/
structure ArgBuf where
  len : Nat
  data : List Nat
deriving DecidableEq, Repr

/-- The decode state machine states (`ReadRequestState` in `io.rs`). -/
inductive ReadRequestState where
  | Init
  | ReadingHeader
  | ReadingArg
  | Done
deriving DecidableEq, Repr

/-- The fields of the `ReadRequest` future: the lazily created header
record, the lazily created argument buffer, and the current state. -/
structure ReadRequest where
  header : Option InHeader
  arg : Option ArgBuf
  state : ReadRequestState
deriving DecidableEq, Repr

/-- The freshly created `ReadRequest` future (`RequestReader::read_request`). -/
def readRequestInit : ReadRequest := ⟨none, none, .Init⟩

instance {ε α : Type} [DecidableEq ε] [DecidableEq α] :
    DecidableEq (Except ε α) := fun a b =>
  match a, b with
  | .ok x, .ok y =>
    if h : x = y then .isTrue (by rw [h]) else .isFalse (by simp [h])
  | .error x, .error y =>
    if h : x = y then .isTrue (by rw [h]) else .isFalse (by simp [h])
  | .ok _, .error _ => .isFalse (by simp)
  | .error _, .ok _ => .isFalse (by simp)

/-- Result of one `ReadRequest::poll` call. -/
inductive PollRes where
  | pending
  | ready (r : Except Int Request)
deriving DecidableEq, Repr

/-- One `poll_read` into the header record's byte view, followed by the
short-read check of the `ReadingHeader` arm: a transfer copies
`min bytes.length inHeaderSize` bytes into the front of the record and a
copied count below the record size fails with `EINVAL`. -/
inductive HdrStepRes where
  | pending (hb : InHeader)
  | failed (e : Int) (hb : InHeader)
  | filled (hb : InHeader)
deriving DecidableEq, Repr

def hdrStep (hb : InHeader) (evt : PollEvt) : HdrStepRes :=
  match evt with
  | .pending => .pending hb
  | .failure e => .failed e hb
  | .transfer bs =>
    let n := min bs.length hb.length
    let hb2 := bs.take n ++ hb.drop n
    if n < inHeaderSize then .failed EINVAL hb2 else .filled hb2

/-- One pass of the `ReadingArg` arm body: the guard raises the buffer's
length to its capacity (`set_len(capacity)`), issues `poll_read` into the
full-capacity view, and on every exit other than a fully successful fill
(pending suspension, transport failure, short read) the guard's destructor
resets the observable length to zero; on a full fill the length is set to
the copied count and the guard is disarmed (`mem::forget`). -/
inductive ArgStepRes where
  | pending (buf : ArgBuf)
  | failed (e : Int) (buf : ArgBuf)
  | filled (data : List Nat)
deriving DecidableEq, Repr

def argStep (buf : ArgBuf) (evt : PollEvt) : ArgStepRes :=
  match evt with
  | .pending => .pending ⟨0, buf.data⟩
  | .failure e => .failed e ⟨0, buf.data⟩
  | .transfer bs =>
    let cap := buf.data.length
    let n := min bs.length cap
    let data := bs.take n ++ buf.data.drop n
    if n < cap then .failed EINVAL ⟨0, data⟩ else .filled data

/-- The backing store of a freshly allocated `Vec::with_capacity (cap)`:
`cap` bytes of uninitialized memory, modelled by an arbitrary junk
function so that no theorem can depend on their values. -/
def mkJunk (junk : Nat → Nat) (cap : Nat) : List Nat :=
  (List.range cap).map junk

/-- The `ReadingArg` arm of `ReadRequest::poll`: panics (`none`) if the
argument buffer is missing; with an empty script the receive is not ready
and the future suspends (the guard having zeroed the length); otherwise one
event is consumed and, on a full fill, the state moves to `Done`, header
and buffer are taken out, and the completed `Request` is yielded. -/
def pollFromArg (s : ReadRequest) (evts : List PollEvt) :
    Option (ReadRequest × List PollEvt × PollRes) :=
  match s.arg with
  | none => none
  | some buf =>
    match evts with
    | [] => some ({ s with arg := some ⟨0, buf.data⟩ }, [], .pending)
    | evt :: rest =>
      match argStep buf evt with
      | .pending buf2 => some ({ s with arg := some buf2 }, rest, .pending)
      | .failed e buf2 =>
        some ({ s with arg := some buf2 }, rest, .ready (.error e))
      | .filled data =>
        match s.header with
        | none => none
        | some hb =>
          some (⟨none, none, .Done⟩, rest, .ready (.ok ⟨hb, data⟩))

/-- The `ReadingHeader` arm of `ReadRequest::poll`: panics (`none`) if the
header record is missing; with an empty script the future suspends;
otherwise one event is consumed, a short header read fails with `EINVAL`
while the state stays `ReadingHeader`, and a full header read computes
`arg_len`, allocates the argument buffer with exactly that capacity
(`Vec::with_capacity`, uninitialized backing bytes drawn from `junk`),
moves to `ReadingArg` and falls through to the argument arm within the
same poll call. An `arg_len` underflow panic propagates as `none`. -/
def pollFromHeader (junk : Nat → Nat) (s : ReadRequest)
    (evts : List PollEvt) : Option (ReadRequest × List PollEvt × PollRes) :=
  match s.header with
  | none => none
  | some hb =>
    match evts with
    | [] => some (s, [], .pending)
    | evt :: rest =>
      match hdrStep hb evt with
      | .pending hb2 => some ({ s with header := some hb2 }, rest, .pending)
      | .failed e hb2 =>
        some ({ s with header := some hb2 }, rest, .ready (.error e))
      | .filled hb2 =>
        match hb2.arg_len with
        | none => none
        | some cap =>
          pollFromArg
            ⟨some hb2, some (s.arg.getD ⟨0, mkJunk junk cap⟩), .ReadingArg⟩
            rest

/-- One call of `ReadRequest::poll`: the `Init` arm allocates a
zero-initialized header record and continues into `ReadingHeader` without
suspending; re-polling `Done` hits `unreachable!()`, modelled as `none`. -/
def pollRR (junk : Nat → Nat) (s : ReadRequest) (evts : List PollEvt) :
    Option (ReadRequest × List PollEvt × PollRes) :=
  match s.state with
  | .Init =>
    pollFromHeader junk
      ⟨some (s.header.getD (List.replicate inHeaderSize 0)), s.arg,
        .ReadingHeader⟩ evts
  | .ReadingHeader => pollFromHeader junk s evts
  | .ReadingArg => pollFromArg s evts
  | .Done => none

/-- Overall outcome of driving one decode to quiescence. -/
inductive DecodeRes where
  | ok (r : Request)
  | err (e : Int)
  | incomplete (s : ReadRequest)
deriving DecidableEq, Repr

/-- Drive the future: poll, and while it reports pending re-poll on the
remaining script; `fuel` bounds the number of polls. -/
def decodeAux (junk : Nat → Nat) :
    Nat → ReadRequest → List PollEvt → Option DecodeRes
  | 0, s, _ => some (.incomplete s)
  | fuel + 1, s, evts =>
    match pollRR junk s evts with
    | none => none
    | some (_, _, .ready (.ok r)) => some (.ok r)
    | some (_, _, .ready (.error e)) => some (.err e)
    | some (s2, rest, .pending) => decodeAux junk fuel s2 rest

/-- Decode one request from a byte-stream script, starting from the fresh
future; `evts.length + 1` polls always suffice to consume the script. -/
def decode (junk : Nat → Nat) (evts : List PollEvt) : Option DecodeRes :=
  decodeAux junk (evts.length + 1) readRequestInit evts

/-- The ready events of a script, in order (pending events only suspend
and change nothing observable). -/
def effEvts (evts : List PollEvt) : List PollEvt :=
  evts.filter (fun e => e ≠ .pending)

theorem effEvts_nil : effEvts [] = [] := rfl

theorem effEvts_pending (rest : List PollEvt) :
    effEvts (.pending :: rest) = effEvts rest := by
  simp [effEvts]

theorem effEvts_failure (e : Int) (rest : List PollEvt) :
    effEvts (.failure e :: rest) = .failure e :: effEvts rest := by
  simp [effEvts]

theorem effEvts_transfer (b : List Nat) (rest : List PollEvt) :
    effEvts (.transfer b :: rest) = .transfer b :: effEvts rest := by
  simp [effEvts]

theorem argStep_transfer_short (l : Nat) (data b : List Nat)
    (h : b.length < data.length) :
    argStep ⟨l, data⟩ (.transfer b) =
      .failed EINVAL ⟨0, b.take b.length ++ data.drop b.length⟩ := by
  unfold argStep
  have hn : min b.length data.length = b.length := min_eq_left (le_of_lt h)
  simp [hn, h]

theorem argStep_transfer_full (l : Nat) (data b : List Nat)
    (h : data.length ≤ b.length) :
    argStep ⟨l, data⟩ (.transfer b) = .filled (b.take data.length) := by
  unfold argStep
  have hn : min b.length data.length = data.length := min_eq_right h
  simp [hn, List.drop_length]

theorem hdrStep_transfer_short (hb b : List Nat)
    (h : b.length < inHeaderSize) (hhb : inHeaderSize ≤ hb.length) :
    hdrStep hb (.transfer b) =
      .failed EINVAL (b.take b.length ++ hb.drop b.length) := by
  unfold hdrStep
  have hn : min b.length hb.length = b.length :=
    min_eq_left (le_trans (le_of_lt h) hhb)
  simp [hn, h]

theorem hdrStep_transfer_full (hb b : List Nat)
    (hhb : hb.length = inHeaderSize) (h : inHeaderSize ≤ b.length) :
    hdrStep hb (.transfer b) = .filled (b.take inHeaderSize) := by
  unfold hdrStep
  have hn : min b.length hb.length = inHeaderSize := by
    rw [hhb]; exact min_eq_right h
  rw [hhb] at hn ⊢
  simp only [hn, Nat.lt_irrefl, if_false]
  rw [← hhb, List.drop_length, List.append_nil]

theorem decodeAux_nil_arg (junk : Nat → Nat) :
    ∀ (fuel : Nat) (hb : InHeader) (l : Nat) (data : List Nat) (r : Request),
    decodeAux junk fuel ⟨some hb, some ⟨l, data⟩, .ReadingArg⟩ [] ≠
      some (.ok r) := by
  intro fuel
  induction fuel with
  | zero => intro hb l data r; simp [decodeAux]
  | succ fuel ih =>
    intro hb l data r
    show decodeAux junk fuel ⟨some hb, some ⟨0, data⟩, .ReadingArg⟩ [] ≠
      some (.ok r)
    exact ih hb 0 data r

theorem decodeAux_nil_hdr (junk : Nat → Nat) :
    ∀ (fuel : Nat) (hb : InHeader) (a : Option ArgBuf) (r : Request),
    decodeAux junk fuel ⟨some hb, a, .ReadingHeader⟩ [] ≠ some (.ok r) := by
  intro fuel
  induction fuel with
  | zero => intro hb a r; simp [decodeAux]
  | succ fuel ih =>
    intro hb a r
    show decodeAux junk fuel ⟨some hb, a, .ReadingHeader⟩ [] ≠ some (.ok r)
    exact ih hb a r

theorem decodeAux_succ (junk : Nat → Nat) (fuel : Nat) (s : ReadRequest)
    (evts : List PollEvt) :
    decodeAux junk (fuel + 1) s evts =
      match pollRR junk s evts with
      | none => none
      | some (_, _, .ready (.ok r)) => some (.ok r)
      | some (_, _, .ready (.error e)) => some (.err e)
      | some (s2, rest, .pending) => decodeAux junk fuel s2 rest := rfl

theorem pollRR_arg (junk : Nat → Nat) (h : Option InHeader) (a : Option ArgBuf)
    (evts : List PollEvt) :
    pollRR junk ⟨h, a, .ReadingArg⟩ evts = pollFromArg ⟨h, a, .ReadingArg⟩ evts :=
  rfl

theorem pollRR_hdr (junk : Nat → Nat) (h : Option InHeader) (a : Option ArgBuf)
    (evts : List PollEvt) :
    pollRR junk ⟨h, a, .ReadingHeader⟩ evts =
      pollFromHeader junk ⟨h, a, .ReadingHeader⟩ evts :=
  rfl

theorem pollFromArg_cons (hb : Option InHeader) (l : Nat) (data : List Nat)
    (st : ReadRequestState) (evt : PollEvt) (rest : List PollEvt) :
    pollFromArg ⟨hb, some ⟨l, data⟩, st⟩ (evt :: rest) =
      match argStep ⟨l, data⟩ evt with
      | .pending buf2 => some (⟨hb, some buf2, st⟩, rest, .pending)
      | .failed e buf2 => some (⟨hb, some buf2, st⟩, rest, .ready (.error e))
      | .filled data2 =>
        match hb with
        | none => none
        | some hb2 => some (⟨none, none, .Done⟩, rest, .ready (.ok ⟨hb2, data2⟩)) :=
  rfl

theorem pollFromHeader_cons (junk : Nat → Nat) (hb : InHeader)
    (a : Option ArgBuf) (st : ReadRequestState) (evt : PollEvt)
    (rest : List PollEvt) :
    pollFromHeader junk ⟨some hb, a, st⟩ (evt :: rest) =
      match hdrStep hb evt with
      | .pending hb2 => some (⟨some hb2, a, st⟩, rest, .pending)
      | .failed e hb2 => some (⟨some hb2, a, st⟩, rest, .ready (.error e))
      | .filled hb2 =>
        match hb2.arg_len with
        | none => none
        | some cap =>
          pollFromArg ⟨some hb2, some (a.getD ⟨0, mkJunk junk cap⟩),
            .ReadingArg⟩ rest :=
  rfl

theorem decodeAux_arg_ok_iff (junk : Nat → Nat) (hb : InHeader) :
    ∀ (evts : List PollEvt) (fuel l : Nat) (data : List Nat) (r : Request),
    evts.length + 1 ≤ fuel →
    (decodeAux junk fuel ⟨some hb, some ⟨l, data⟩, .ReadingArg⟩ evts =
        some (.ok r) ↔
      ∃ b rest, effEvts evts = .transfer b :: rest ∧
        data.length ≤ b.length ∧ r = ⟨hb, b.take data.length⟩) := by
  intro evts
  induction evts with
  | nil =>
    intro fuel l data r hf
    constructor
    · intro h
      exact absurd h (decodeAux_nil_arg junk fuel hb l data r)
    · rintro ⟨b, rest, hcons, -, -⟩
      rw [effEvts_nil] at hcons
      exact List.noConfusion hcons
  | cons e rest ih =>
    intro fuel l data r hf
    obtain ⟨k, rfl⟩ : ∃ k, fuel = k + 1 := ⟨fuel - 1, by omega⟩
    have hfk : rest.length + 1 ≤ k := by
      simpa using Nat.lt_succ_iff.mp (by simpa using hf)
    cases e with
    | pending =>
      have hstep : decodeAux junk (k + 1)
          ⟨some hb, some ⟨l, data⟩, .ReadingArg⟩ (.pending :: rest) =
          decodeAux junk k ⟨some hb, some ⟨0, data⟩, .ReadingArg⟩ rest := rfl
      rw [hstep, ih k 0 data r hfk, effEvts_pending]
    | failure e2 =>
      have hstep : decodeAux junk (k + 1)
          ⟨some hb, some ⟨l, data⟩, .ReadingArg⟩ (.failure e2 :: rest) =
          some (.err e2) := rfl
      rw [hstep, effEvts_failure]
      constructor
      · intro h
        exact absurd h (by simp)
      · rintro ⟨b, rest2, hcons, -, -⟩
        exact absurd hcons (by simp)
    | transfer b =>
      rcases Nat.lt_or_ge b.length data.length with hlt | hge
      · have hstep : decodeAux junk (k + 1)
            ⟨some hb, some ⟨l, data⟩, .ReadingArg⟩ (.transfer b :: rest) =
            some (.err EINVAL) := by
          rw [decodeAux_succ, pollRR_arg, pollFromArg_cons,
            argStep_transfer_short l data b hlt]
        rw [hstep, effEvts_transfer]
        constructor
        · intro h
          exact absurd h (by simp)
        · rintro ⟨b2, rest2, hcons, hlen, -⟩
          rw [List.cons.injEq] at hcons
          obtain ⟨hb2, -⟩ := hcons
          rw [PollEvt.transfer.injEq] at hb2
          subst hb2
          omega
      · have hstep : decodeAux junk (k + 1)
            ⟨some hb, some ⟨l, data⟩, .ReadingArg⟩ (.transfer b :: rest) =
            some (.ok ⟨hb, b.take data.length⟩) := by
          rw [decodeAux_succ, pollRR_arg, pollFromArg_cons,
            argStep_transfer_full l data b hge]
        rw [hstep, effEvts_transfer]
        constructor
        · intro h
          rw [Option.some.injEq, DecodeRes.ok.injEq] at h
          exact ⟨b, effEvts rest, rfl, hge, h.symm⟩
        · rintro ⟨b2, rest2, hcons, hlen, hr⟩
          rw [List.cons.injEq] at hcons
          obtain ⟨hb2, -⟩ := hcons
          rw [PollEvt.transfer.injEq] at hb2
          subst hb2
          rw [hr]

theorem mkJunk_length (junk : Nat → Nat) (cap : Nat) :
    (mkJunk junk cap).length = cap := by
  simp [mkJunk]

theorem decodeAux_hdr_ok_iff (junk : Nat → Nat) :
    ∀ (evts : List PollEvt) (fuel : Nat) (hb : InHeader) (r : Request),
    hb.length = inHeaderSize → evts.length + 1 ≤ fuel →
    (decodeAux junk fuel ⟨some hb, none, .ReadingHeader⟩ evts =
        some (.ok r) ↔
      ∃ b1 b2 rest cap,
        effEvts evts = .transfer b1 :: .transfer b2 :: rest ∧
        inHeaderSize ≤ b1.length ∧
        InHeader.arg_len (b1.take inHeaderSize) = some cap ∧
        cap ≤ b2.length ∧ r = ⟨b1.take inHeaderSize, b2.take cap⟩) := by
  intro evts
  induction evts with
  | nil =>
    intro fuel hb r hhb hf
    constructor
    · intro h
      exact absurd h (decodeAux_nil_hdr junk fuel hb none r)
    · rintro ⟨b1, b2, rest, cap, hcons, -, -, -, -⟩
      rw [effEvts_nil] at hcons
      exact List.noConfusion hcons
  | cons e rest ih =>
    intro fuel hb r hhb hf
    obtain ⟨k, rfl⟩ : ∃ k, fuel = k + 1 := ⟨fuel - 1, by omega⟩
    have hfk : rest.length + 1 ≤ k := by
      simpa using Nat.lt_succ_iff.mp (by simpa using hf)
    cases e with
    | pending =>
      have hstep : decodeAux junk (k + 1)
          ⟨some hb, none, .ReadingHeader⟩ (.pending :: rest) =
          decodeAux junk k ⟨some hb, none, .ReadingHeader⟩ rest := rfl
      rw [hstep, ih k hb r hhb hfk, effEvts_pending]
    | failure e2 =>
      have hstep : decodeAux junk (k + 1)
          ⟨some hb, none, .ReadingHeader⟩ (.failure e2 :: rest) =
          some (.err e2) := rfl
      rw [hstep, effEvts_failure]
      constructor
      · intro h
        exact absurd h (by simp)
      · rintro ⟨b1, b2, rest2, cap, hcons, -, -, -, -⟩
        exact absurd hcons (by simp)
    | transfer b1 =>
      rcases Nat.lt_or_ge b1.length inHeaderSize with hlt | hge
      · have hstep : decodeAux junk (k + 1)
            ⟨some hb, none, .ReadingHeader⟩ (.transfer b1 :: rest) =
            some (.err EINVAL) := by
          rw [decodeAux_succ, pollRR_hdr, pollFromHeader_cons,
            hdrStep_transfer_short hb b1 hlt (le_of_eq hhb.symm)]
        rw [hstep, effEvts_transfer]
        constructor
        · intro h
          exact absurd h (by simp)
        · rintro ⟨b1', b2, rest2, cap, hcons, h1, -, -, -⟩
          rw [List.cons.injEq] at hcons
          obtain ⟨hb1, -⟩ := hcons
          rw [PollEvt.transfer.injEq] at hb1
          subst hb1
          omega
      · cases harg : InHeader.arg_len (b1.take inHeaderSize) with
        | none =>
          have hstep : decodeAux junk (k + 1)
              ⟨some hb, none, .ReadingHeader⟩ (.transfer b1 :: rest) =
              none := by
            rw [decodeAux_succ, pollRR_hdr, pollFromHeader_cons,
              hdrStep_transfer_full hb b1 hhb hge]
            dsimp only
            rw [harg]
          rw [hstep, effEvts_transfer]
          constructor
          · intro h
            exact absurd h (by simp)
          · rintro ⟨b1', b2, rest2, cap, hcons, h1, h2, -, -⟩
            rw [List.cons.injEq] at hcons
            obtain ⟨hb1, -⟩ := hcons
            rw [PollEvt.transfer.injEq] at hb1
            subst hb1
            rw [harg] at h2
            exact Option.noConfusion h2
        | some cap =>
          have hstep : decodeAux junk (k + 1)
              ⟨some hb, none, .ReadingHeader⟩ (.transfer b1 :: rest) =
              decodeAux junk (k + 1) ⟨some (b1.take inHeaderSize),
                some ⟨0, mkJunk junk cap⟩, .ReadingArg⟩ rest := by
            conv_lhs => rw [decodeAux_succ, pollRR_hdr, pollFromHeader_cons,
              hdrStep_transfer_full hb b1 hhb hge]
            conv_rhs => rw [decodeAux_succ, pollRR_arg]
            dsimp only
            rw [harg]
            rfl
          rw [hstep, decodeAux_arg_ok_iff junk (b1.take inHeaderSize) rest
            (k + 1) 0 (mkJunk junk cap) r (by omega), mkJunk_length,
            effEvts_transfer]
          constructor
          · rintro ⟨b2, rest2, hcons2, hlen2, hr⟩
            exact ⟨b1, b2, rest2, cap, by rw [hcons2], hge, harg, hlen2, hr⟩
          · rintro ⟨b1', b2, rest2, cap', hcons, h1, h2, h3, h4⟩
            rw [List.cons.injEq] at hcons
            obtain ⟨hb1, hcons2⟩ := hcons
            rw [PollEvt.transfer.injEq] at hb1
            subst hb1
            rw [harg, Option.some.injEq] at h2
            subst h2
            exact ⟨b2, rest2, hcons2, h3, h4⟩

theorem decode_ok_iff (junk : Nat → Nat) (evts : List PollEvt) (r : Request) :
    decode junk evts = some (.ok r) ↔
      ∃ b1 b2 rest cap,
        effEvts evts = .transfer b1 :: .transfer b2 :: rest ∧
        inHeaderSize ≤ b1.length ∧
        InHeader.arg_len (b1.take inHeaderSize) = some cap ∧
        cap ≤ b2.length ∧ r = ⟨b1.take inHeaderSize, b2.take cap⟩ := by
  have hinit : decode junk evts =
      decodeAux junk (evts.length + 1)
        ⟨some (List.replicate inHeaderSize 0), none, .ReadingHeader⟩ evts :=
    rfl
  rw [hinit]
  exact decodeAux_hdr_ok_iff junk evts (evts.length + 1)
    (List.replicate inHeaderSize 0) r (by simp) (le_refl _)

/-- C4: every successfully decoded `Request` owns an argument buffer whose
length is exactly the `arg_len` computed from the header it contains. -/
theorem request_arg_len_invariant (junk : Nat → Nat) (evts : List PollEvt)
    (r : Request) (h : decode junk evts = some (.ok r)) :
    InHeader.arg_len r.header = some r.arg.length := by
  obtain ⟨b1, b2, rest, cap, h1, h2, h3, h4, h5⟩ :=
    (decode_ok_iff junk evts r).mp h
  subst h5
  dsimp only
  have hlen : (b2.take cap).length = cap := by
    rw [List.length_take]
    exact min_eq_left h4
  rw [hlen]
  exact h3

/-- A concrete well-formed header record: `len = 40`, `opcode = 0`, all
other bytes zero, so the argument section is empty. -/
def goodHdr : InHeader := 40 :: List.replicate 39 0

/-- A script delivering `goodHdr` and then an empty argument transfer. -/
def goodScript : List PollEvt := [.transfer goodHdr, .transfer []]

/-- C4 witness: decoding `goodScript` yields a `Request` whose argument
length (zero) matches its header's `arg_len`. -/
theorem request_arg_len_invariant_witness :
    InHeader.arg_len (Request.mk goodHdr []).header =
      some (Request.mk goodHdr []).arg.length :=
  request_arg_len_invariant (fun _ => 0) goodScript ⟨goodHdr, []⟩ (by decide)

/-- C8: decoding a fixed byte stream with two independent decoder
instances — even with different uninitialized-memory contents (`junk1`,
`junk2`) backing their freshly allocated argument buffers — yields
structurally identical `Request` values: decode is a deterministic
function of the received bytes. -/
theorem decode_deterministic (junk1 junk2 : Nat → Nat) (evts : List PollEvt)
    (r1 r2 : Request) (h1 : decode junk1 evts = some (.ok r1))
    (h2 : decode junk2 evts = some (.ok r2)) : r1 = r2 := by
  obtain ⟨b1, b2, rest, cap, e1, -, a1, -, hr1⟩ :=
    (decode_ok_iff junk1 evts r1).mp h1
  obtain ⟨c1, c2, rest2, cap2, e2, -, a2, -, hr2⟩ :=
    (decode_ok_iff junk2 evts r2).mp h2
  rw [e1, List.cons.injEq, List.cons.injEq, PollEvt.transfer.injEq,
    PollEvt.transfer.injEq] at e2
  obtain ⟨hb1, hb2, -⟩ := e2
  subst hb1
  subst hb2
  rw [a1, Option.some.injEq] at a2
  subst a2
  rw [hr1, hr2]

/-- A concrete header record with `len = 44`: four argument bytes. -/
def goodHdr44 : InHeader := 44 :: List.replicate 39 0

/-- A script delivering `goodHdr44` and a four-byte argument transfer. -/
def goodScript44 : List PollEvt := [.transfer goodHdr44, .transfer [1, 2, 3, 4]]

/-- C8 witness: two decoders with different junk memory (all zeros versus
all nines) produce the same `Request` from `goodScript44`. -/
theorem decode_deterministic_witness :
    (⟨goodHdr44, [1, 2, 3, 4]⟩ : Request) = ⟨goodHdr44, [1, 2, 3, 4]⟩ :=
  decode_deterministic (fun _ => 0) (fun _ => 9) goodScript44 _ _
    (by decide) (by decide)

/-- C5: on every exit of the argument-read step other than a fully
successful fill — suspension at the poll point (which is where a
cancelling drop observes the buffer), transport failure, or short read —
the guard has reset the buffer's observable length to zero, whatever the
allocated capacity holds. -/
theorem arg_read_exit_len_zero (buf : ArgBuf) (evt : PollEvt) :
    (∀ buf2, argStep buf evt = .pending buf2 → buf2.len = 0) ∧
    (∀ e buf2, argStep buf evt = .failed e buf2 → buf2.len = 0) := by
  constructor
  · intro buf2 h
    cases evt with
    | pending =>
      rw [show argStep buf .pending = .pending ⟨0, buf.data⟩ from rfl,
        ArgStepRes.pending.injEq] at h
      rw [← h]
    | failure e =>
      rw [show argStep buf (.failure e) = .failed e ⟨0, buf.data⟩ from rfl] at h
      exact absurd h (by simp)
    | transfer bs =>
      unfold argStep at h
      dsimp only at h
      split at h
      · exact absurd h (by simp)
      · exact absurd h (by simp)
  · intro e buf2 h
    cases evt with
    | pending =>
      rw [show argStep buf .pending = .pending ⟨0, buf.data⟩ from rfl] at h
      exact absurd h (by simp)
    | failure e2 =>
      rw [show argStep buf (.failure e2) = .failed e2 ⟨0, buf.data⟩ from rfl,
        ArgStepRes.failed.injEq] at h
      rw [← h.2]
    | transfer bs =>
      unfold argStep at h
      dsimp only at h
      split at h
      · rw [ArgStepRes.failed.injEq] at h
        rw [← h.2]
      · exact absurd h (by simp)

/-- C5 witness: a pending (cancellation-point) exit and a transport-failure
exit both leave the observable length at zero. -/
theorem arg_read_exit_len_zero_witness :
    (⟨0, [5, 6, 7]⟩ : ArgBuf).len = 0 ∧ (⟨0, [1]⟩ : ArgBuf).len = 0 :=
  ⟨(arg_read_exit_len_zero ⟨3, [5, 6, 7]⟩ .pending).1 ⟨0, [5, 6, 7]⟩ (by decide),
   (arg_read_exit_len_zero ⟨1, [1]⟩ (.failure 5)).2 5 ⟨0, [1]⟩ (by decide)⟩

/-- The header record held in a header-stage step result. -/
def hdrOf : HdrStepRes → InHeader
  | .pending h => h
  | .failed _ h => h
  | .filled h => h

theorem hdrStep_transfer_hdrOf (bs : List Nat) :
    hdrOf (hdrStep (List.replicate inHeaderSize 0) (.transfer bs)) =
      bs.take (min bs.length (List.replicate inHeaderSize 0).length) ++
        (List.replicate inHeaderSize 0).drop
          (min bs.length (List.replicate inHeaderSize 0).length) := by
  unfold hdrStep
  dsimp only
  split
  · rfl
  · rfl

/-- C7: the decoder's `Init` arm hands the very first header receive a
record every byte of which is zero, and a transfer that under-fills it
(fewer bytes than the record size) leaves every byte past the copied count
still zero — no header byte ever holds indeterminate memory. -/
theorem init_header_zeroed (junk : Nat → Nat) (evts : List PollEvt) :
    pollRR junk readRequestInit evts =
      pollFromHeader junk
        ⟨some (List.replicate inHeaderSize 0), none, .ReadingHeader⟩ evts ∧
    (∀ b ∈ (List.replicate inHeaderSize 0 : List Nat), b = 0) ∧
    ∀ (bs : List Nat),
      ∀ b ∈ (hdrOf (hdrStep (List.replicate inHeaderSize 0)
        (.transfer bs))).drop bs.length, b = 0 := by
  refine ⟨rfl, fun b hb => List.eq_of_mem_replicate hb, fun bs b hb => ?_⟩
  rw [hdrStep_transfer_hdrOf, List.drop_append_eq_append_drop] at hb
  have htake : (bs.take (min bs.length
      (List.replicate inHeaderSize 0).length)).drop bs.length = [] := by
    apply List.drop_eq_nil_of_le
    rw [List.length_take]
    omega
  rw [htake, List.nil_append] at hb
  exact List.eq_of_mem_replicate
    (List.mem_of_mem_drop (List.mem_of_mem_drop hb))

/-- C7 witness: after a 3-byte under-fill of the zeroed record, the bytes
past the copied count are still zero. -/
theorem init_header_zeroed_witness : (0 : Nat) = 0 :=
  (init_header_zeroed (fun _ => 0) []).2.2 [1, 2, 3] 0 (by decide)


/-- Position of a state in the `Init → ReadingHeader → ReadingArg → Done`
order. -/
def stateRank : ReadRequestState → Nat
  | .Init => 0
  | .ReadingHeader => 1
  | .ReadingArg => 2
  | .Done => 3

theorem pollFromArg_state (hb : Option InHeader) (a : Option ArgBuf)
    (st : ReadRequestState) (evts : List PollEvt)
    (out : ReadRequest × List PollEvt × PollRes)
    (h : pollFromArg ⟨hb, a, st⟩ evts = some out) :
    out.1.state = st ∨ out.1.state = .Done := by
  cases a with
  | none => exact Option.noConfusion h
  | some buf =>
    cases evts with
    | nil =>
      have h2 : (⟨hb, some ⟨0, buf.data⟩, st⟩, ([] : List PollEvt),
          PollRes.pending) = out := Option.some.inj h
      rw [← h2]
      exact Or.inl rfl
    | cons evt rest =>
      rw [show (⟨hb, some buf, st⟩ : ReadRequest) =
        ⟨hb, some ⟨buf.len, buf.data⟩, st⟩ from rfl, pollFromArg_cons] at h
      cases hstep : argStep ⟨buf.len, buf.data⟩ evt with
      | pending buf2 =>
        rw [hstep] at h
        dsimp only at h
        rw [← Option.some.inj h]
        exact Or.inl rfl
      | failed e buf2 =>
        rw [hstep] at h
        dsimp only at h
        rw [← Option.some.inj h]
        exact Or.inl rfl
      | filled d2 =>
        rw [hstep] at h
        dsimp only at h
        cases hb with
        | none => exact Option.noConfusion h
        | some hb2 =>
          rw [← Option.some.inj h]
          exact Or.inr rfl

theorem pollFromHeader_state (junk : Nat → Nat) (hb : Option InHeader)
    (a : Option ArgBuf) (st : ReadRequestState) (evts : List PollEvt)
    (out : ReadRequest × List PollEvt × PollRes)
    (h : pollFromHeader junk ⟨hb, a, st⟩ evts = some out) :
    out.1.state = st ∨ out.1.state = .ReadingArg ∨ out.1.state = .Done := by
  cases hb with
  | none => exact Option.noConfusion h
  | some hbv =>
    cases evts with
    | nil =>
      have h2 : ((⟨some hbv, a, st⟩ : ReadRequest), ([] : List PollEvt),
          PollRes.pending) = out := Option.some.inj h
      rw [← h2]
      exact Or.inl rfl
    | cons evt rest =>
      rw [pollFromHeader_cons] at h
      cases hstep : hdrStep hbv evt with
      | pending hb2 =>
        rw [hstep] at h
        dsimp only at h
        rw [← Option.some.inj h]
        exact Or.inl rfl
      | failed e hb2 =>
        rw [hstep] at h
        dsimp only at h
        rw [← Option.some.inj h]
        exact Or.inl rfl
      | filled hb2 =>
        rw [hstep] at h
        dsimp only at h
        cases harg : InHeader.arg_len hb2 with
        | none =>
          rw [harg] at h
          exact Option.noConfusion h
        | some cap =>
          rw [harg] at h
          dsimp only at h
          rcases pollFromArg_state (some hb2)
              (some (a.getD ⟨0, mkJunk junk cap⟩)) .ReadingArg rest out h with
            h2 | h2
          · exact Or.inr (Or.inl h2)
          · exact Or.inr (Or.inr h2)

/-- C9: one `poll` never moves the state machine backwards — the state's
position in the order `Init → ReadingHeader → ReadingArg → Done` never
decreases across a poll — and polling a future whose state is already
`Done` hits `unreachable!()` (modelled as `none`) instead of yielding a
value or suspending. -/
theorem poll_state_monotone_done_panics :
    (∀ (junk : Nat → Nat) (s : ReadRequest) (evts : List PollEvt)
      (out : ReadRequest × List PollEvt × PollRes),
      pollRR junk s evts = some out →
      stateRank s.state ≤ stateRank out.1.state) ∧
    (∀ (junk : Nat → Nat) (s : ReadRequest) (evts : List PollEvt),
      s.state = .Done → pollRR junk s evts = none) := by
  constructor
  · rintro junk ⟨hb, a, st⟩ evts out h
    cases st with
    | Init => exact Nat.zero_le _
    | ReadingHeader =>
      show stateRank .ReadingHeader ≤ stateRank out.1.state
      rcases pollFromHeader_state junk hb a .ReadingHeader evts out h with
        h2 | h2 | h2
      · rw [h2]
      · rw [h2]
        decide
      · rw [h2]
        decide
    | ReadingArg =>
      show stateRank .ReadingArg ≤ stateRank out.1.state
      rcases pollFromArg_state hb a .ReadingArg evts out h with h2 | h2
      · rw [h2]
      · rw [h2]
        decide
    | Done => exact Option.noConfusion h
  · rintro junk ⟨hb, a, st⟩ evts h
    have h2 : st = .Done := h
    subst h2
    rfl

/-- The decoder state reached after the `Init` transition and a not-ready
header receive. -/
def headerReadyState : ReadRequest :=
  ⟨some (List.replicate inHeaderSize 0), none, .ReadingHeader⟩

/-- C9 witness: polling the freshly initialized future on an empty script
does not move the state backwards, and polling a `Done`-state future
panics. -/
theorem poll_state_monotone_done_panics_witness :
    stateRank readRequestInit.state ≤ stateRank headerReadyState.state ∧
    pollRR (fun _ => 0) ⟨none, none, .Done⟩ [] = none :=
  ⟨poll_state_monotone_done_panics.1 (fun _ => 0) readRequestInit []
      (headerReadyState, [], .pending) (by decide),
   poll_state_monotone_done_panics.2 (fun _ => 0) ⟨none, none, .Done⟩ [] rfl⟩

theorem decodeAux_hdr_transfer_shortread (junk : Nat → Nat) (k : Nat)
    (hb b1 : List Nat) (rest : List PollEvt)
    (hhb : hb.length = inHeaderSize) (hlt : b1.length < inHeaderSize) :
    decodeAux junk (k + 1) ⟨some hb, none, .ReadingHeader⟩
      (.transfer b1 :: rest) = some (.err EINVAL) := by
  rw [decodeAux_succ, pollRR_hdr, pollFromHeader_cons,
    hdrStep_transfer_short hb b1 hlt (le_of_eq hhb.symm)]

theorem decodeAux_hdr_transfer_panic (junk : Nat → Nat) (k : Nat)
    (hb b1 : List Nat) (rest : List PollEvt)
    (hhb : hb.length = inHeaderSize) (hge : inHeaderSize ≤ b1.length)
    (harg : InHeader.arg_len (b1.take inHeaderSize) = none) :
    decodeAux junk (k + 1) ⟨some hb, none, .ReadingHeader⟩
      (.transfer b1 :: rest) = none := by
  rw [decodeAux_succ, pollRR_hdr, pollFromHeader_cons,
    hdrStep_transfer_full hb b1 hhb hge]
  dsimp only
  rw [harg]

theorem decodeAux_hdr_transfer_cont (junk : Nat → Nat) (k : Nat)
    (hb b1 : List Nat) (rest : List PollEvt) (cap : Nat)
    (hhb : hb.length = inHeaderSize) (hge : inHeaderSize ≤ b1.length)
    (harg : InHeader.arg_len (b1.take inHeaderSize) = some cap) :
    decodeAux junk (k + 1) ⟨some hb, none, .ReadingHeader⟩
      (.transfer b1 :: rest) =
      decodeAux junk (k + 1) ⟨some (b1.take inHeaderSize),
        some ⟨0, mkJunk junk cap⟩, .ReadingArg⟩ rest := by
  conv_lhs => rw [decodeAux_succ, pollRR_hdr, pollFromHeader_cons,
    hdrStep_transfer_full hb b1 hhb hge]
  conv_rhs => rw [decodeAux_succ, pollRR_arg]
  dsimp only
  rw [harg]
  rfl

theorem decodeAux_nil_arg_err (junk : Nat → Nat) :
    ∀ (fuel : Nat) (hb : InHeader) (l : Nat) (data : List Nat) (e : Int),
    decodeAux junk fuel ⟨some hb, some ⟨l, data⟩, .ReadingArg⟩ [] ≠
      some (.err e) := by
  intro fuel
  induction fuel with
  | zero => intro hb l data e; simp [decodeAux]
  | succ fuel ih =>
    intro hb l data e
    show decodeAux junk fuel ⟨some hb, some ⟨0, data⟩, .ReadingArg⟩ [] ≠
      some (.err e)
    exact ih hb 0 data e

theorem decodeAux_nil_hdr_err (junk : Nat → Nat) :
    ∀ (fuel : Nat) (hb : InHeader) (a : Option ArgBuf) (e : Int),
    decodeAux junk fuel ⟨some hb, a, .ReadingHeader⟩ [] ≠ some (.err e) := by
  intro fuel
  induction fuel with
  | zero => intro hb a e; simp [decodeAux]
  | succ fuel ih =>
    intro hb a e
    show decodeAux junk fuel ⟨some hb, a, .ReadingHeader⟩ [] ≠ some (.err e)
    exact ih hb a e

theorem decodeAux_arg_err_iff (junk : Nat → Nat) (hb : InHeader) :
    ∀ (evts : List PollEvt) (fuel l : Nat) (data : List Nat) (e : Int),
    evts.length + 1 ≤ fuel →
    (decodeAux junk fuel ⟨some hb, some ⟨l, data⟩, .ReadingArg⟩ evts =
        some (.err e) ↔
      (∃ rest, effEvts evts = .failure e :: rest) ∨
      (∃ b rest, effEvts evts = .transfer b :: rest ∧
        b.length < data.length ∧ e = EINVAL)) := by
  intro evts
  induction evts with
  | nil =>
    intro fuel l data e hf
    constructor
    · intro h
      exact absurd h (decodeAux_nil_arg_err junk fuel hb l data e)
    · rintro (⟨rest, hcons⟩ | ⟨b, rest, hcons, -, -⟩) <;>
        (rw [effEvts_nil] at hcons; exact List.noConfusion hcons)
  | cons ev rest ih =>
    intro fuel l data e hf
    obtain ⟨k, rfl⟩ : ∃ k, fuel = k + 1 := ⟨fuel - 1, by omega⟩
    have hfk : rest.length + 1 ≤ k := by
      simpa using Nat.lt_succ_iff.mp (by simpa using hf)
    cases ev with
    | pending =>
      have hstep : decodeAux junk (k + 1)
          ⟨some hb, some ⟨l, data⟩, .ReadingArg⟩ (.pending :: rest) =
          decodeAux junk k ⟨some hb, some ⟨0, data⟩, .ReadingArg⟩ rest := rfl
      rw [hstep, ih k 0 data e hfk, effEvts_pending]
    | failure e2 =>
      have hstep : decodeAux junk (k + 1)
          ⟨some hb, some ⟨l, data⟩, .ReadingArg⟩ (.failure e2 :: rest) =
          some (.err e2) := rfl
      rw [hstep, effEvts_failure]
      constructor
      · intro h
        rw [Option.some.injEq, DecodeRes.err.injEq] at h
        exact Or.inl ⟨effEvts rest, by rw [h]⟩
      · rintro (⟨rest2, hcons⟩ | ⟨b, rest2, hcons, -, -⟩)
        · rw [List.cons.injEq] at hcons
          obtain ⟨he, -⟩ := hcons
          rw [PollEvt.failure.injEq] at he
          rw [he]
        · rw [List.cons.injEq] at hcons
          exact absurd hcons.1 (by simp)
    | transfer b =>
      rcases Nat.lt_or_ge b.length data.length with hlt | hge
      · have hstep : decodeAux junk (k + 1)
            ⟨some hb, some ⟨l, data⟩, .ReadingArg⟩ (.transfer b :: rest) =
            some (.err EINVAL) := by
          rw [decodeAux_succ, pollRR_arg, pollFromArg_cons,
            argStep_transfer_short l data b hlt]
        rw [hstep, effEvts_transfer]
        constructor
        · intro h
          rw [Option.some.injEq, DecodeRes.err.injEq] at h
          exact Or.inr ⟨b, effEvts rest, rfl, hlt, h.symm⟩
        · rintro (⟨rest2, hcons⟩ | ⟨b2, rest2, hcons, -, he⟩)
          · rw [List.cons.injEq] at hcons
            exact absurd hcons.1 (by simp)
          · rw [he]
      · have hstep : decodeAux junk (k + 1)
            ⟨some hb, some ⟨l, data⟩, .ReadingArg⟩ (.transfer b :: rest) =
            some (.ok ⟨hb, b.take data.length⟩) := by
          rw [decodeAux_succ, pollRR_arg, pollFromArg_cons,
            argStep_transfer_full l data b hge]
        rw [hstep, effEvts_transfer]
        constructor
        · intro h
          rw [Option.some.injEq] at h
          exact absurd h (by simp)
        · rintro (⟨rest2, hcons⟩ | ⟨b2, rest2, hcons, hblt, -⟩)
          · rw [List.cons.injEq] at hcons
            exact absurd hcons.1 (by simp)
          · rw [List.cons.injEq] at hcons
            obtain ⟨hbb, -⟩ := hcons
            rw [PollEvt.transfer.injEq] at hbb
            subst hbb
            omega

theorem decodeAux_hdr_err_iff (junk : Nat → Nat) :
    ∀ (evts : List PollEvt) (fuel : Nat) (hb : InHeader) (e : Int),
    hb.length = inHeaderSize → evts.length + 1 ≤ fuel →
    (decodeAux junk fuel ⟨some hb, none, .ReadingHeader⟩ evts =
        some (.err e) ↔
      (∃ rest, effEvts evts = .failure e :: rest) ∨
      (∃ b1 rest, effEvts evts = .transfer b1 :: rest ∧
        b1.length < inHeaderSize ∧ e = EINVAL) ∨
      (∃ b1 cap rest, effEvts evts = .transfer b1 :: .failure e :: rest ∧
        inHeaderSize ≤ b1.length ∧
        InHeader.arg_len (b1.take inHeaderSize) = some cap) ∨
      (∃ b1 b2 cap rest,
        effEvts evts = .transfer b1 :: .transfer b2 :: rest ∧
        inHeaderSize ≤ b1.length ∧
        InHeader.arg_len (b1.take inHeaderSize) = some cap ∧
        b2.length < cap ∧ e = EINVAL)) := by
  intro evts
  induction evts with
  | nil =>
    intro fuel hb e hhb hf
    constructor
    · intro h
      exact absurd h (decodeAux_nil_hdr_err junk fuel hb none e)
    · rintro (⟨rest, hcons⟩ | ⟨b1, rest, hcons, -, -⟩ |
        ⟨b1, cap, rest, hcons, -, -⟩ |
        ⟨b1, b2, cap, rest, hcons, -, -, -, -⟩) <;>
        (rw [effEvts_nil] at hcons; exact List.noConfusion hcons)
  | cons ev rest ih =>
    intro fuel hb e hhb hf
    obtain ⟨k, rfl⟩ : ∃ k, fuel = k + 1 := ⟨fuel - 1, by omega⟩
    have hfk : rest.length + 1 ≤ k := by
      simpa using Nat.lt_succ_iff.mp (by simpa using hf)
    cases ev with
    | pending =>
      have hstep : decodeAux junk (k + 1)
          ⟨some hb, none, .ReadingHeader⟩ (.pending :: rest) =
          decodeAux junk k ⟨some hb, none, .ReadingHeader⟩ rest := rfl
      rw [hstep, ih k hb e hhb hfk, effEvts_pending]
    | failure e2 =>
      have hstep : decodeAux junk (k + 1)
          ⟨some hb, none, .ReadingHeader⟩ (.failure e2 :: rest) =
          some (.err e2) := rfl
      rw [hstep, effEvts_failure]
      constructor
      · intro h
        rw [Option.some.injEq, DecodeRes.err.injEq] at h
        exact Or.inl ⟨effEvts rest, by rw [h]⟩
      · rintro (⟨rest2, hcons⟩ | ⟨b1, rest2, hcons, -, -⟩ |
          ⟨b1, cap, rest2, hcons, -, -⟩ |
          ⟨b1, b2, cap, rest2, hcons, -, -, -, -⟩)
        · rw [List.cons.injEq] at hcons
          obtain ⟨he, -⟩ := hcons
          rw [PollEvt.failure.injEq] at he
          rw [he]
        · rw [List.cons.injEq] at hcons
          exact absurd hcons.1 (by simp)
        · rw [List.cons.injEq] at hcons
          exact absurd hcons.1 (by simp)
        · rw [List.cons.injEq] at hcons
          exact absurd hcons.1 (by simp)
    | transfer b1 =>
      rcases Nat.lt_or_ge b1.length inHeaderSize with hlt | hge
      · rw [decodeAux_hdr_transfer_shortread junk k hb b1 rest hhb hlt,
          effEvts_transfer]
        constructor
        · intro h
          rw [Option.some.injEq, DecodeRes.err.injEq] at h
          exact Or.inr (Or.inl ⟨b1, effEvts rest, rfl, hlt, h.symm⟩)
        · rintro (⟨rest2, hcons⟩ | ⟨c1, rest2, hcons, -, he⟩ |
            ⟨c1, cap, rest2, hcons, hge2, -⟩ |
            ⟨c1, b2, cap, rest2, hcons, hge2, -, -, -⟩)
          · rw [List.cons.injEq] at hcons
            exact absurd hcons.1 (by simp)
          · rw [he]
          · rw [List.cons.injEq] at hcons
            obtain ⟨hbb, -⟩ := hcons
            rw [PollEvt.transfer.injEq] at hbb
            subst hbb
            omega
          · rw [List.cons.injEq] at hcons
            obtain ⟨hbb, -⟩ := hcons
            rw [PollEvt.transfer.injEq] at hbb
            subst hbb
            omega
      · cases harg : InHeader.arg_len (b1.take inHeaderSize) with
        | none =>
          rw [decodeAux_hdr_transfer_panic junk k hb b1 rest hhb hge harg,
            effEvts_transfer]
          constructor
          · intro h
            exact Option.noConfusion h
          · rintro (⟨rest2, hcons⟩ | ⟨c1, rest2, hcons, hlt2, -⟩ |
              ⟨c1, cap, rest2, hcons, -, harg2⟩ |
              ⟨c1, b2, cap, rest2, hcons, -, harg2, -, -⟩)
            · rw [List.cons.injEq] at hcons
              exact absurd hcons.1 (by simp)
            · rw [List.cons.injEq] at hcons
              obtain ⟨hbb, -⟩ := hcons
              rw [PollEvt.transfer.injEq] at hbb
              subst hbb
              omega
            · rw [List.cons.injEq] at hcons
              obtain ⟨hbb, -⟩ := hcons
              rw [PollEvt.transfer.injEq] at hbb
              subst hbb
              rw [harg] at harg2
              exact Option.noConfusion harg2
            · rw [List.cons.injEq] at hcons
              obtain ⟨hbb, -⟩ := hcons
              rw [PollEvt.transfer.injEq] at hbb
              subst hbb
              rw [harg] at harg2
              exact Option.noConfusion harg2
        | some cap =>
          rw [decodeAux_hdr_transfer_cont junk k hb b1 rest cap hhb hge harg,
            decodeAux_arg_err_iff junk (b1.take inHeaderSize) rest (k + 1) 0
              (mkJunk junk cap) e (by omega), mkJunk_length, effEvts_transfer]
          constructor
          · rintro (⟨rest2, hcons2⟩ | ⟨b2, rest2, hcons2, hlen2, he⟩)
            · exact Or.inr (Or.inr (Or.inl ⟨b1, cap, rest2,
                by rw [hcons2], hge, harg⟩))
            · exact Or.inr (Or.inr (Or.inr ⟨b1, b2, cap, rest2,
                by rw [hcons2], hge, harg, hlen2, he⟩))
          · rintro (⟨rest2, hcons⟩ | ⟨c1, rest2, hcons, hlt2, -⟩ |
              ⟨c1, cap2, rest2, hcons, -, harg2⟩ |
              ⟨c1, b2, cap2, rest2, hcons, -, harg2, hblt, he⟩)
            · rw [List.cons.injEq] at hcons
              exact absurd hcons.1 (by simp)
            · rw [List.cons.injEq] at hcons
              obtain ⟨hbb, -⟩ := hcons
              rw [PollEvt.transfer.injEq] at hbb
              subst hbb
              omega
            · rw [List.cons.injEq] at hcons
              obtain ⟨hbb, hcons2⟩ := hcons
              rw [PollEvt.transfer.injEq] at hbb
              subst hbb
              exact Or.inl ⟨rest2, hcons2⟩
            · rw [List.cons.injEq] at hcons
              obtain ⟨hbb, hcons2⟩ := hcons
              rw [PollEvt.transfer.injEq] at hbb
              subst hbb
              rw [harg, Option.some.injEq] at harg2
              subst harg2
              exact Or.inr ⟨b2, rest2, hcons2, hblt, he⟩

theorem decode_err_iff (junk : Nat → Nat) (evts : List PollEvt) (e : Int) :
    decode junk evts = some (.err e) ↔
      (∃ rest, effEvts evts = .failure e :: rest) ∨
      (∃ b1 rest, effEvts evts = .transfer b1 :: rest ∧
        b1.length < inHeaderSize ∧ e = EINVAL) ∨
      (∃ b1 cap rest, effEvts evts = .transfer b1 :: .failure e :: rest ∧
        inHeaderSize ≤ b1.length ∧
        InHeader.arg_len (b1.take inHeaderSize) = some cap) ∨
      (∃ b1 b2 cap rest,
        effEvts evts = .transfer b1 :: .transfer b2 :: rest ∧
        inHeaderSize ≤ b1.length ∧
        InHeader.arg_len (b1.take inHeaderSize) = some cap ∧
        b2.length < cap ∧ e = EINVAL) := by
  have hinit : decode junk evts =
      decodeAux junk (evts.length + 1)
        ⟨some (List.replicate inHeaderSize 0), none, .ReadingHeader⟩ evts :=
    rfl
  rw [hinit]
  exact decodeAux_hdr_err_iff junk evts (evts.length + 1)
    (List.replicate inHeaderSize 0) e (by simp) (le_refl _)

/-- C2 (amended): decode succeeds (yields a `Request`) exactly when the
first two ready events of the stream are byte transfers, the header
transfer carries at least the header record size, `arg_len` of the
received header is defined, and the argument transfer carries at least
that many bytes (exactly `arg_len` bytes are copied into the buffer);
every failing ready outcome is exactly a transport failure propagated
unchanged from the stream (at the header stage, or at the argument stage
after a full header with defined `arg_len`) or a short-read `EINVAL` (a
header transfer below the record size, or an argument transfer below
`arg_len`); and no `Request` is ever produced on failure. The remaining
ready case — a full header whose `arg_len` underflows — panics instead of
returning either error (see the counterexample). -/
theorem decode_success_and_failure_classification (junk : Nat → Nat)
    (evts : List PollEvt) :
    ((∃ r, decode junk evts = some (.ok r)) ↔
      ∃ b1 b2 rest cap,
        effEvts evts = .transfer b1 :: .transfer b2 :: rest ∧
        inHeaderSize ≤ b1.length ∧
        InHeader.arg_len (b1.take inHeaderSize) = some cap ∧
        cap ≤ b2.length) ∧
    (∀ e, decode junk evts = some (.err e) ↔
      (∃ rest, effEvts evts = .failure e :: rest) ∨
      (∃ b1 rest, effEvts evts = .transfer b1 :: rest ∧
        b1.length < inHeaderSize ∧ e = EINVAL) ∨
      (∃ b1 cap rest, effEvts evts = .transfer b1 :: .failure e :: rest ∧
        inHeaderSize ≤ b1.length ∧
        InHeader.arg_len (b1.take inHeaderSize) = some cap) ∨
      (∃ b1 b2 cap rest,
        effEvts evts = .transfer b1 :: .transfer b2 :: rest ∧
        inHeaderSize ≤ b1.length ∧
        InHeader.arg_len (b1.take inHeaderSize) = some cap ∧
        b2.length < cap ∧ e = EINVAL)) ∧
    (∀ e r, decode junk evts = some (.err e) →
      decode junk evts ≠ some (.ok r)) := by
  refine ⟨?_, fun e => decode_err_iff junk evts e, ?_⟩
  · constructor
    · rintro ⟨r, hr⟩
      obtain ⟨b1, b2, rest, cap, h1, h2, h3, h4, -⟩ :=
        (decode_ok_iff junk evts r).mp hr
      exact ⟨b1, b2, rest, cap, h1, h2, h3, h4⟩
    · rintro ⟨b1, b2, rest, cap, h1, h2, h3, h4⟩
      exact ⟨⟨b1.take inHeaderSize, b2.take cap⟩, (decode_ok_iff junk
        evts _).mpr ⟨b1, b2, rest, cap, h1, h2, h3, h4, rfl⟩⟩
  · intro e r h hok
    rw [h, Option.some.injEq] at hok
    exact DecodeRes.noConfusion hok

/-- C2 counterexample: a ready header receive that transfers a full
40-byte record whose `len` field is 0 (a non-write opcode) is "another
ready case", yet decode neither yields a `Request` nor fails with
`EINVAL`/a transport error — it aborts (`none`, the `arg_len` underflow
panic), refuting the original claim's failure taxonomy. -/
theorem decode_failure_taxonomy_cex :
    inHeaderSize ≤ (List.replicate inHeaderSize (0 : Nat)).length ∧
    decode (fun _ => 0) [.transfer (List.replicate inHeaderSize 0)] =
      none := by
  decide

/-- C2 witness: the spec's scenario — a channel transferring only 10
bytes at the header receive — fails with the short-read `EINVAL`, and a
header-stage transport failure is propagated unchanged. -/
theorem decode_success_and_failure_classification_witness :
    decode (fun _ => 0) [.transfer (List.replicate 10 0)] =
      some (.err EINVAL) ∧
    decode (fun _ => 0) [.failure 5] = some (.err 5) :=
  ⟨((decode_success_and_failure_classification (fun _ => 0)
      [.transfer (List.replicate 10 0)]).2.1 EINVAL).mpr
    (Or.inr (Or.inl ⟨List.replicate 10 0, [], by decide, by decide, rfl⟩)),
   ((decode_success_and_failure_classification (fun _ => 0)
      [.failure 5]).2.1 5).mpr (Or.inl ⟨[], by decide⟩)⟩
